import Mathlib

/-!
Shallow embedding of the relplanner server (`server.go`) — the versioned
JSON document store: ETag fingerprints (`computeETag`), checksum sidecars
(`writeChecksum`), shallow schema validation (`validateByPath`), backup
listing and rotation (`listBackups`, `cleanupOldBackups`), the document
update protocol (`updateJSONFileWithBackup`), document reads
(`serveJSONFile`) and backup deletion (`handleBackups`, DELETE branch).

Go byte slices and strings are both modelled as `List Nat` (byte values);
the filesystem is modelled explicitly: the target document file as an
`Option (List Nat)` (`none` = file does not exist) and the backup
directory as an association list of filename/content pairs.  The external
library calls that the handlers make — `json.Unmarshal`,
`json.MarshalIndent` and `time.Now().Format` — are passed in as explicit
parameters (`parse`, `render`, `now`); everything else is translated
directly from the Go source.
-/

/-- Byte sequences: Go `[]byte` and `string` values. -/
abbrev Bytes := List Nat

/-- Byte sequence of an ASCII string literal. -/
def str (s : String) : Bytes := s.data.map Char.toNat

/-! ### SHA-256 (`crypto/sha256`), on which `computeETag` and `writeChecksum` rely -/

/-- Truncate to a 32-bit word. -/
def w32 (n : Nat) : Nat := n % 4294967296

/-- Rotate a 32-bit word right by `n` bits. -/
def rotr (n x : Nat) : Nat := w32 (x / 2 ^ n + x % 2 ^ n * 2 ^ (32 - n))

/-- Shift a 32-bit word right by `n` bits. -/
def shr (n x : Nat) : Nat := x / 2 ^ n

/-- Bitwise complement of a 32-bit word. -/
def bnot (x : Nat) : Nat := Nat.xor x 4294967295

/-- SHA-256 Σ0. -/
def bigS0 (x : Nat) : Nat := Nat.xor (rotr 2 x) (Nat.xor (rotr 13 x) (rotr 22 x))

/-- SHA-256 Σ1. -/
def bigS1 (x : Nat) : Nat := Nat.xor (rotr 6 x) (Nat.xor (rotr 11 x) (rotr 25 x))

/-- SHA-256 σ0. -/
def smallS0 (x : Nat) : Nat := Nat.xor (rotr 7 x) (Nat.xor (rotr 18 x) (shr 3 x))

/-- SHA-256 σ1. -/
def smallS1 (x : Nat) : Nat := Nat.xor (rotr 17 x) (Nat.xor (rotr 19 x) (shr 10 x))

/-- SHA-256 Ch. -/
def chF (x y z : Nat) : Nat := Nat.xor (Nat.land x y) (Nat.land (bnot x) z)

/-- SHA-256 Maj. -/
def majF (x y z : Nat) : Nat :=
  Nat.xor (Nat.land x y) (Nat.xor (Nat.land x z) (Nat.land y z))

/-- SHA-256 round constants. -/
def K256 : List Nat :=
  [1116352408, 1899447441, 3049323471, 3921009573, 961987163, 1508970993,
   2453635748, 2870763221, 3624381080, 310598401, 607225278, 1426881987,
   1925078388, 2162078206, 2614888103, 3248222580, 3835390401, 4022224774,
   264347078, 604807628, 770255983, 1249150122, 1555081692, 1996064986,
   2554220882, 2821834349, 2952996808, 3210313671, 3336571891, 3584528711,
   113926993, 338241895, 666307205, 773529912, 1294757372, 1396182291,
   1695183700, 1986661051, 2177026350, 2456956037, 2730485921, 2820302411,
   3259730800, 3345764771, 3516065817, 3600352804, 4094571909, 275423344,
   430227734, 506948616, 659060556, 883997877, 958139571, 1322822218,
   1537002063, 1747873779, 1955562222, 2024104815, 2227730452, 2361852424,
   2428436474, 2756734187, 3204031479, 3329325298]

/-- SHA-256 initial hash state. -/
def H256 : List Nat :=
  [1779033703, 3144134277, 1013904242, 2773480762,
   1359893119, 2600822924, 528734635, 1541459225]

/-- Big-endian byte rendering of `n` on `k` bytes. -/
def natToBytesBE : Nat → Nat → Bytes
  | 0, _ => []
  | k + 1, n => n / 256 ^ k % 256 :: natToBytesBE k n

/-- SHA-256 message padding: append `0x80`, zeros, and the 64-bit bit length. -/
def padMsg (m : Bytes) : Bytes :=
  let z := (64 + 56 - (m.length + 1) % 64) % 64
  m ++ 128 :: (List.replicate z 0 ++ natToBytesBE 8 (8 * m.length))

/-- Accumulator-based splitting of a byte list into chunks of `k` bytes. -/
def chunksAux (k : Nat) : Bytes → Bytes → List Bytes
  | [], acc => if acc = [] then [] else [acc.reverse]
  | c :: r, acc =>
    if acc.length + 1 = k then (c :: acc).reverse :: chunksAux k r []
    else chunksAux k r (c :: acc)

/-- Split a byte list into chunks of `k` bytes. -/
def chunkList (k : Nat) (l : Bytes) : List Bytes := chunksAux k l []

/-- Big-endian word value of a byte chunk. -/
def wordOf (b : Bytes) : Nat := b.foldl (fun a c => a * 256 + c) 0

/-- One step of the SHA-256 message-schedule extension (most recent word first). -/
def wExt (ws : List Nat) : List Nat :=
  w32 (smallS1 (ws.getD 1 0) + ws.getD 6 0 + smallS0 (ws.getD 14 0) + ws.getD 15 0) :: ws

/-- One SHA-256 compression round on the eight-word working state. -/
def roundF (st : List Nat) (wk : Nat × Nat) : List Nat :=
  let a := st.getD 0 0
  let b := st.getD 1 0
  let c := st.getD 2 0
  let d := st.getD 3 0
  let e := st.getD 4 0
  let f := st.getD 5 0
  let g := st.getD 6 0
  let h := st.getD 7 0
  let t1 := w32 (h + bigS1 e + chF e f g + wk.2 + wk.1)
  let t2 := w32 (bigS0 a + majF a b c)
  [w32 (t1 + t2), a, b, c, w32 (d + t1), e, f, g]

/-- Process one padded 64-byte block into the running hash state. -/
def processBlock (h : List Nat) (blk : Bytes) : List Nat :=
  let ws := (chunkList 4 blk).map wordOf
  let W := (wExt^[48] ws.reverse).reverse
  let out := (W.zip K256).foldl roundF h
  (h.zip out).map (fun p => w32 (p.1 + p.2))

/-- SHA-256 digest (32 bytes) of a byte sequence. -/
def sha256 (m : Bytes) : Bytes :=
  (((chunkList 64 (padMsg m)).foldl processBlock H256).map (natToBytesBE 4)).flatten

/-! ### Checksum/ETag utility (`computeETag`, `writeChecksum`) -/

/-- Lowercase hexadecimal digit character code of a value below 16. -/
def hexDigit (n : Nat) : Nat := if n < 10 then 48 + n else 87 + n

/-- Lowercase hex rendering of a byte sequence, as Go's `fmt "%x"` on a byte slice. -/
def hexBytes (b : Bytes) : Bytes :=
  (b.map (fun x => [hexDigit (x / 16 % 16), hexDigit (x % 16)])).flatten

/-- Model of `computeETag`: Go's nil byte slice (absent content, e.g. a failed
read) is `none`; any real byte sequence — including the empty one — is `some`.
A nil slice maps to the sentinel `"0"`; otherwise the ETag is the first 8
digest bytes rendered in hex between double quotes. -/
def computeETag : Option Bytes → Bytes
  | none => str "\"0\""
  | some b => 34 :: (hexBytes ((sha256 b).take 8) ++ [34])

/-- Model of `writeChecksum`'s sidecar content for a backup whose bytes are
`c`: the full (non-truncated) digest in hex, followed by a newline. -/
def writeChecksumBytes (c : Bytes) : Bytes := hexBytes (sha256 c) ++ [10]

/-! ### String helpers (`strings` / `path/filepath` library behaviour) -/

/-- Byte-wise lexicographic order, Go's `<` on strings. -/
def strLt : Bytes → Bytes → Bool
  | [], [] => false
  | [], _ :: _ => true
  | _ :: _, [] => false
  | a :: as, b :: bs => if a < b then true else if b < a then false else strLt as bs

/-- Go's `>` on strings. -/
def strGt (a b : Bytes) : Bool := strLt b a

/-- Go's `strings.HasPrefix pre s` (first argument is the candidate head). -/
def startsWith : Bytes → Bytes → Bool
  | [], _ => true
  | _ :: _, [] => false
  | p :: ps, c :: cs => if p = c then startsWith ps cs else false

/-- Go's `strings.HasSuffix suf s` (first argument is the candidate tail). -/
def endsWith (suf s : Bytes) : Bool := startsWith suf.reverse s.reverse

/-- Go's `strings.TrimSuffix`. -/
def trimSuffix (s suf : Bytes) : Bytes :=
  if endsWith suf s then s.take (s.length - suf.length) else s

/-- Go's `strings.Split(s, ".")`. -/
def splitOnDot : Bytes → List Bytes
  | [] => [[]]
  | c :: r =>
    if c = 46 then [] :: splitOnDot r
    else
      match splitOnDot r with
      | [] => [[c]]
      | p :: ps => (c :: p) :: ps

/-- Go's `filepath.Base` on a Unix path: strip trailing slashes, keep the
last path element; empty path gives `"."`, an all-slash path gives `"/"`. -/
def baseName (p : Bytes) : Bytes :=
  if p = [] then str "."
  else
    let q := (p.reverse.dropWhile (fun c => c = 47)).reverse
    if q = [] then [47]
    else (q.reverse.takeWhile (fun c => decide (c ≠ 47))).reverse

/-! ### JSON values and validation (`validateByPath`) -/

/-- Parsed JSON values, the image of Go's `json.Unmarshal` into `interface{}`
(numbers carried as integers; no claim inspects numeric payloads). -/
inductive Json where
  | null
  | bool (b : Bool)
  | num (n : Int)
  | str (s : Bytes)
  | arr (xs : List Json)
  | obj (kvs : List (Bytes × Json))

/-- Whether a JSON value is an object, Go's `data.(map[string]interface{})` test. -/
def isObj : Json → Bool
  | .obj _ => true
  | _ => false

/-- Whether a JSON object has the given key (`m[k]` presence test). -/
def hasKey (j : Json) (k : Bytes) : Bool :=
  match j with
  | .obj kvs => kvs.any (fun e => decide (e.1 = k))
  | _ => false

/-- Model of `validateByPath`: minimal shape checks keyed by the base filename. -/
def validateByPath (path : Bytes) (j : Json) : Bool :=
  let base := baseName path
  if base = str "environments.json" then isObj j && hasKey j (str "environments")
  else if base = str "releases.json" then isObj j
  else if base = str "holidays.json" then isObj j && hasKey j (str "holidays")
  else true

/-! ### The backup directory (`listBackups`, `cleanupOldBackups`) -/

/-- The backup directory: an association list of filename/content entries.
Real directories never hold two entries with one name, so theorems that
count or delete entries assume `(d.map Prod.fst).Nodup`. -/
abbrev Dir := List (Bytes × Bytes)

/-- Model of `listBackups`: names of the (non-directory) entries whose
filename starts with the given byte sequence. -/
def listBackups (d : Dir) (pfx : Bytes) : List Bytes :=
  (d.map Prod.fst).filter (fun n => startsWith pfx n)

/-- Model of `os.Remove` in the backup directory: drop the entry with the
given name. -/
def eraseName : Dir → Bytes → Dir
  | [], _ => []
  | e :: d, n => if e.1 = n then d else e :: eraseName d n

/-- Model of `os.WriteFile` in the backup directory: overwrite the entry with
the given name, or append a new entry. -/
def writeFileD (d : Dir) (n c : Bytes) : Dir :=
  if n ∈ d.map Prod.fst then d.map (fun e => if e.1 = n then (n, c) else e)
  else d ++ [(n, c)]

/-- Content of the named entry of the backup directory, when present. -/
def lookupD : Dir → Bytes → Option Bytes
  | [], _ => none
  | e :: d, n => if e.1 = n then some e.2 else lookupD d n

/-- The comparison closure passed to `sort.Slice` in `cleanupOldBackups`:
descending by the second dot-separated segment, falling back to full-string
comparison when either name has fewer than three segments. -/
def bkLess (a b : Bytes) : Bool :=
  match splitOnDot a, splitOnDot b with
  | _ :: pa :: _ :: _, _ :: pb :: _ :: _ => strGt pa pb
  | _, _ => strGt a b

/-- Sort relation induced by `bkLess`: `a` may precede `b` exactly when the
comparator does not demand `b` before `a`.  Go's `sort.Slice` is unstable but
every correct sort agrees with `List.insertionSort bkBefore` whenever the
comparator has no ties, which covers every run the theorems below describe. -/
def bkBefore (a b : Bytes) : Prop := bkLess b a = false

instance : DecidableRel bkBefore :=
  fun a b => inferInstanceAs (Decidable (bkLess b a = false))

/-- Model of `cleanupOldBackups`: strip a `.json` suffix from the base
filename, list the matching entries, and — when they exceed the limit —
sort them with the comparator and delete every entry beyond the first
`maxB`. -/
def cleanupOldBackups (d : Dir) (baseFilename : Bytes) (maxB : Nat) : Dir :=
  let base := trimSuffix baseFilename (str ".json")
  let backups := listBackups d base
  if backups.length ≤ maxB then d
  else
    let sorted := List.insertionSort bkBefore backups
    (sorted.drop maxB).foldl eraseName d

/-! ### The document store (`serveJSONFile`, `updateJSONFileWithBackup`) -/

/-- Mutable filesystem state seen by one document endpoint: the target
document file (`none` when it does not exist) and the backup directory. -/
structure St where
  file : Option Bytes
  backups : Dir
deriving DecidableEq

/-- Outcome of a document POST, as translated to an HTTP status by the
endpoint layer: 400 invalid JSON, 400 schema validation, 412 with the
current ETag, or 200 with the new ETag. -/
inductive UpdResult where
  | invalidJSON
  | schemaInvalid
  | preconditionFailed (etag : Bytes)
  | ok (etag : Bytes)
deriving DecidableEq

/-- Backup filename for a document prefix and a timestamp token:
`<pfx>.<t>.json`, the `fmt.Sprintf("%s.%s.json", ...)` of the Go code. -/
def mkName (pfx t : Bytes) : Bytes := pfx ++ str "." ++ t ++ str ".json"

/-- Backup filename built in `updateJSONFileWithBackup`:
`<baseNameWithoutExtension>.<timestamp>.json`. -/
def backupNameOf (path now : Bytes) : Bytes :=
  mkName (trimSuffix (baseName path) (str ".json")) now

/-- Model of `updateJSONFileWithBackup`.  `parse` stands for
`json.Unmarshal`, `render` for `json.MarshalIndent`, `now` for the formatted
`time.Now()` timestamp; `ifMatch` is the `If-Match` header value (Go's
`Header.Get` yields the empty string when the header is absent).  Backup and
sidecar write failures are logged warnings in the Go code; the model's
filesystem operations succeed. -/
def updateJSONFileWithBackup (parse : Bytes → Option Json) (render : Json → Bytes)
    (path : Bytes) (maxB : Nat) (ifMatch : Bytes) (now : Bytes) (body : Bytes)
    (st : St) : UpdResult × St :=
  match parse body with
  | none => (.invalidJSON, st)
  | some j =>
    if validateByPath path j then
      let pretty := render j
      match st.file with
      | some cur =>
        if ifMatch ≠ [] ∧ computeETag (some cur) ≠ ifMatch then
          (.preconditionFailed (computeETag (some cur)), st)
        else
          let bname := backupNameOf path now
          let d1 := writeFileD st.backups bname cur
          let d2 := writeFileD d1 (bname ++ str ".sha256") (writeChecksumBytes cur)
          let d3 := cleanupOldBackups d2 (baseName path) maxB
          (.ok (computeETag (some pretty)), ⟨some pretty, d3⟩)
      | none => (.ok (computeETag (some pretty)), ⟨some pretty, st.backups⟩)
    else (.schemaInvalid, st)

/-- Model of `serveJSONFile`: the response body for a GET, paired with the
state of the document file afterwards.  A missing file yields the literal
`"{}"` and stays missing. -/
def serveJSONFile (file : Option Bytes) : Bytes × Option Bytes :=
  match file with
  | none => (str "{}", none)
  | some d => (d, some d)

/-- Outcome of the DELETE branch of `handleBackups`: 400 undecodable body,
400 missing filename, 500 from `os.Remove`, or 200. -/
inductive DelResult where
  | badRequest
  | missingFilename
  | removeFailed
  | deleted
deriving DecidableEq

/-- Model of the DELETE branch of `handleBackups`: decode `{filename}`,
reject an empty name, sanitize with `filepath.Base`, and remove that single
entry from the backup directory. -/
def handleBackupsDelete (d : Dir) (req : Option Bytes) : DelResult × Dir :=
  match req with
  | none => (.badRequest, d)
  | some f =>
    if f = [] then (.missingFilename, d)
    else
      let n := baseName f
      if n ∈ d.map Prod.fst then (.deleted, eraseName d n)
      else (.removeFailed, d)

/-! ### Length facts about the digest and its hex rendering -/

lemma natToBytesBE_length (k n : Nat) : (natToBytesBE k n).length = k := by
  induction k generalizing n with
  | zero => rfl
  | succ k ih => simp [natToBytesBE, ih]

lemma roundF_length (st : List Nat) (wk : Nat × Nat) : (roundF st wk).length = 8 := rfl

lemma foldl_roundF_length (l : List (Nat × Nat)) (st : List Nat) (h : st.length = 8) :
    (l.foldl roundF st).length = 8 := by
  induction l generalizing st with
  | nil => simpa using h
  | cons x xs ih => simpa [List.foldl_cons] using ih _ (roundF_length _ _)

lemma processBlock_length (h : List Nat) (blk : Bytes) (hh : h.length = 8) :
    (processBlock h blk).length = 8 := by
  unfold processBlock
  rw [List.length_map, List.length_zip, foldl_roundF_length _ _ hh, hh]
  omega

lemma foldl_processBlock_length (bs : List Bytes) (h : List Nat) (hh : h.length = 8) :
    (bs.foldl processBlock h).length = 8 := by
  induction bs generalizing h with
  | nil => simpa using hh
  | cons x xs ih => simpa [List.foldl_cons] using ih _ (processBlock_length _ _ hh)

lemma flatten_map_natToBytesBE_length (l : List Nat) :
    ((l.map (natToBytesBE 4)).flatten).length = 4 * l.length := by
  induction l with
  | nil => rfl
  | cons x xs ih =>
    simp only [List.map_cons, List.flatten_cons, List.length_append, ih,
      natToBytesBE_length, List.length_cons]
    omega

lemma sha256_length (m : Bytes) : (sha256 m).length = 32 := by
  unfold sha256
  rw [flatten_map_natToBytesBE_length, foldl_processBlock_length _ H256 rfl]

lemma hexBytes_length (b : Bytes) : (hexBytes b).length = 2 * b.length := by
  induction b with
  | nil => rfl
  | cons x xs ih =>
    simp only [hexBytes, List.map_cons, List.flatten_cons, List.length_append] at ih ⊢
    simp [ih]
    omega

/-- C5 (amended).  The fingerprint function is deterministic and pure (it is a
function of its input alone); for every byte sequence `b` the fingerprint is
the first 8 bytes of the SHA-256 digest rendered as hex and wrapped in double
quotes; the nil/absent marker (Go's nil slice, `none` here) yields the
reserved sentinel `"0"`; and the fingerprint of any actual byte sequence —
including the empty one — differs from the sentinel. -/
theorem computeETag_shape_and_sentinel (b : Bytes) :
    computeETag (some b) = 34 :: (hexBytes ((sha256 b).take 8) ++ [34]) ∧
    computeETag none = str "\"0\"" ∧
    computeETag (some b) ≠ computeETag none := by
  refine ⟨rfl, rfl, fun h => ?_⟩
  have hl := congrArg List.length h
  rw [computeETag, computeETag] at hl
  simp only [List.length_cons, List.length_append, hexBytes_length, List.length_take,
    sha256_length] at hl
  simp [str] at hl

set_option maxRecDepth 100000 in
/-- C5, counterexample to the claim as stated: a present-but-empty byte
sequence does not map to the sentinel `"0"`; it gets the ordinary truncated
digest of the empty input. -/
theorem computeETag_empty_not_sentinel :
    computeETag (some []) = str "\"e3b0c44298fc1c14\"" ∧
    computeETag (some []) ≠ str "\"0\"" := by
  constructor <;> decide

/-- C8.  Reading a document whose file does not exist answers with the
canonical empty JSON object and leaves the file absent; being a pure function
of the file state, repeated reads answer the same. -/
theorem serveJSONFile_absent : serveJSONFile none = (str "{}", none) := rfl

/-- C6.  A body that fails to parse is rejected as invalid JSON with the state
untouched, whatever the validation, precondition or file state; a body that
parses but fails the shape check is rejected as schema-invalid with the state
untouched, whatever the precondition or file state. -/
theorem update_parse_then_validate_gate (parse : Bytes → Option Json)
    (render : Json → Bytes) (path : Bytes) (maxB : Nat) (ifMatch now body : Bytes)
    (st : St) :
    (parse body = none →
      updateJSONFileWithBackup parse render path maxB ifMatch now body st =
        (.invalidJSON, st)) ∧
    (∀ j, parse body = some j → validateByPath path j = false →
      updateJSONFileWithBackup parse render path maxB ifMatch now body st =
        (.schemaInvalid, st)) := by
  constructor
  · intro h
    simp [updateJSONFileWithBackup, h]
  · intro j hj hv
    simp [updateJSONFileWithBackup, hj, hv]

/-- Witness for C6 at concrete inputs: a parser that fails, and a parser that
yields a JSON array for the releases document (whose shape check demands an
object). -/
theorem update_parse_then_validate_gate_witness :
    updateJSONFileWithBackup (fun _ => none) (fun _ => str "{}") (str "x.json") 10 []
      (str "20250101-000000") (str "\x7b") ⟨none, []⟩ = (.invalidJSON, ⟨none, []⟩) ∧
    updateJSONFileWithBackup (fun _ => some (Json.arr [])) (fun _ => str "[]")
      (str "releases.json") 10 [] (str "20250101-000000") (str "[]") ⟨none, []⟩ =
      (.schemaInvalid, ⟨none, []⟩) :=
  ⟨(update_parse_then_validate_gate _ _ _ _ _ _ _ _).1 rfl,
   (update_parse_then_validate_gate _ _ _ _ _ _ _ _).2 (Json.arr []) rfl (by decide)⟩

/-- C7.  The validation function is pure and implements exactly the per-name
shape table: `environments.json` demands an object with an `environments`
key, `releases.json` demands an object, `holidays.json` demands an object
with a `holidays` key, and every other base filename passes unconditionally —
no entry-level field is inspected. -/
theorem validateByPath_table (p : Bytes) (j : Json) :
    (baseName p = str "environments.json" →
      (validateByPath p j = true ↔
        isObj j = true ∧ hasKey j (str "environments") = true)) ∧
    (baseName p = str "releases.json" → (validateByPath p j = true ↔ isObj j = true)) ∧
    (baseName p = str "holidays.json" →
      (validateByPath p j = true ↔
        isObj j = true ∧ hasKey j (str "holidays") = true)) ∧
    (baseName p ≠ str "environments.json" → baseName p ≠ str "releases.json" →
      baseName p ≠ str "holidays.json" → validateByPath p j = true) := by
  have h1 : str "releases.json" ≠ str "environments.json" := by decide
  have h2 : str "holidays.json" ≠ str "environments.json" := by decide
  have h3 : str "holidays.json" ≠ str "releases.json" := by decide
  refine ⟨fun h => ?_, fun h => ?_, fun h => ?_, fun ha hb hc => ?_⟩
  · simp [validateByPath, h]
  · simp [validateByPath, h, h1]
  · simp [validateByPath, h, h2, h3]
  · simp [validateByPath, ha, hb, hc]

/-- Witness for C7 at concrete names: the four rows of the table exercised on
concrete paths and JSON values. -/
theorem validateByPath_table_witness :
    (validateByPath (str "environments.json") (Json.obj []) = true ↔
      isObj (Json.obj []) = true ∧
        hasKey (Json.obj []) (str "environments") = true) ∧
    (validateByPath (str "releases.json") (Json.obj []) = true ↔
      isObj (Json.obj []) = true) ∧
    (validateByPath (str "holidays.json") (Json.obj []) = true ↔
      isObj (Json.obj []) = true ∧ hasKey (Json.obj []) (str "holidays") = true) ∧
    validateByPath (str "jira-config.json") (Json.obj []) = true :=
  ⟨(validateByPath_table _ _).1 (by decide),
   (validateByPath_table _ _).2.1 (by decide),
   (validateByPath_table _ _).2.2.1 (by decide),
   (validateByPath_table _ _).2.2.2 (by decide) (by decide) (by decide)⟩

/-! ### The update protocol: precondition handling -/

/-- C1.  When the target file exists and a non-empty `If-Match` value is
supplied that differs from the fingerprint of the current on-disk bytes, an
otherwise well-formed write is rejected as a precondition failure carrying
the current fingerprint, and the whole state — document file and backup
directory — is returned unchanged. -/
theorem update_stale_precondition_rejected (parse : Bytes → Option Json)
    (render : Json → Bytes) (path : Bytes) (maxB : Nat) (ifMatch now body : Bytes)
    (st : St) (j : Json) (cur : Bytes)
    (hp : parse body = some j) (hv : validateByPath path j = true)
    (hf : st.file = some cur) (hm : ifMatch ≠ [])
    (hne : computeETag (some cur) ≠ ifMatch) :
    updateJSONFileWithBackup parse render path maxB ifMatch now body st =
      (.preconditionFailed (computeETag (some cur)), st) := by
  simp [updateJSONFileWithBackup, hp, hv, hf, hm, hne]

set_option maxRecDepth 100000 in
/-- Witness for C1: a concrete stale write against a file holding `"{}"`. -/
theorem update_stale_precondition_rejected_witness :
    updateJSONFileWithBackup (fun _ => some (Json.obj [])) (fun _ => str "{}")
      (str "x.json") 10 [63] (str "20250101-000000") (str "{}")
      ⟨some (str "{}"), []⟩ =
      (.preconditionFailed (computeETag (some (str "{}"))), ⟨some (str "{}"), []⟩) :=
  update_stale_precondition_rejected _ _ _ _ _ _ _ _ _ _ rfl (by decide) rfl
    (by decide) (by decide)

/-- C10.  An `If-Match` header equal to the empty string (which is also how
Go reports an absent header) skips the fingerprint comparison entirely: an
otherwise well-formed write against an existing file succeeds and installs
the rendered body, whatever the current content — last writer wins. -/
theorem update_empty_ifmatch_skips_precondition (parse : Bytes → Option Json)
    (render : Json → Bytes) (path : Bytes) (maxB : Nat) (now body : Bytes)
    (st : St) (j : Json) (cur : Bytes)
    (hp : parse body = some j) (hv : validateByPath path j = true)
    (hf : st.file = some cur) :
    (updateJSONFileWithBackup parse render path maxB [] now body st).1 =
      .ok (computeETag (some (render j))) ∧
    (updateJSONFileWithBackup parse render path maxB [] now body st).2.file =
      some (render j) := by
  simp [updateJSONFileWithBackup, hp, hv, hf]

set_option maxRecDepth 100000 in
/-- Witness for C10: a concrete empty-`If-Match` write over an existing file
with different content succeeds. -/
theorem update_empty_ifmatch_skips_precondition_witness :
    (updateJSONFileWithBackup (fun _ => some (Json.obj [])) (fun _ => str "{}")
      (str "x.json") 10 [] (str "20250101-000000") (str "{}")
      ⟨some (str "[1]"), []⟩).1 = .ok (computeETag (some (str "{}"))) ∧
    (updateJSONFileWithBackup (fun _ => some (Json.obj [])) (fun _ => str "{}")
      (str "x.json") 10 [] (str "20250101-000000") (str "{}")
      ⟨some (str "[1]"), []⟩).2.file = some (str "{}") :=
  update_empty_ifmatch_skips_precondition _ _ _ _ _ _ _ _ _ rfl (by decide) rfl

/-! ### Backup deletion -/

lemma eraseName_eq_filter (d : Dir) (n : Bytes) (hn : (d.map Prod.fst).Nodup) :
    eraseName d n = d.filter (fun e => decide (e.1 ≠ n)) := by
  induction d with
  | nil => rfl
  | cons e d ih =>
    simp only [List.map_cons, List.nodup_cons] at hn
    by_cases he : e.1 = n
    · subst he
      rw [eraseName, if_pos rfl, List.filter_cons]
      rw [show (decide (e.1 ≠ e.1)) = false by simp]
      simp only [Bool.false_eq_true, if_false]
      symm
      rw [List.filter_eq_self]
      intro a ha
      simp only [decide_eq_true_eq, ne_eq]
      intro hc
      exact hn.1 (hc ▸ List.mem_map_of_mem Prod.fst ha)
    · rw [eraseName, if_neg he, List.filter_cons]
      rw [show (decide (e.1 ≠ n)) = true by simp [he]]
      simp only [if_true]
      rw [ih hn.2]

lemma append_right_ne (a s : Bytes) (h : s ≠ []) : a ++ s ≠ a := by
  intro he
  have := congrArg List.length he
  simp only [List.length_append] at this
  exact h (List.eq_nil_of_length_eq_zero (by omega))

/-- C9.  Deleting a backup sanitizes the requested filename to its base
component, removes exactly that one entry of the backup directory, and in
particular leaves the `.sha256` sidecar of the deleted backup in place. -/
theorem handleBackupsDelete_removes_single (d : Dir) (f : Bytes)
    (hn : (d.map Prod.fst).Nodup) (hf : f ≠ []) (hm : baseName f ∈ d.map Prod.fst) :
    handleBackupsDelete d (some f) =
      (.deleted, d.filter (fun e => decide (e.1 ≠ baseName f))) ∧
    ∀ c, (baseName f ++ str ".sha256", c) ∈ d →
      (baseName f ++ str ".sha256", c) ∈ (handleBackupsDelete d (some f)).2 := by
  have hdel : handleBackupsDelete d (some f) =
      (.deleted, d.filter (fun e => decide (e.1 ≠ baseName f))) := by
    simp only [handleBackupsDelete, if_neg hf, if_pos hm]
    rw [eraseName_eq_filter d _ hn]
  refine ⟨hdel, fun c hc => ?_⟩
  rw [hdel]
  simp only [List.mem_filter, decide_eq_true_eq, ne_eq]
  exact ⟨hc, append_right_ne _ _ (by decide)⟩

/-- Witness for C9: deleting `dir/x.json` from a directory holding the
backup and its sidecar removes only `x.json`, keeping `x.json.sha256`. -/
theorem handleBackupsDelete_removes_single_witness :
    handleBackupsDelete
        [(str "x.json", str "{}"), (str "x.json.sha256", str "ab")]
        (some (str "dir/x.json")) =
      (.deleted, [(str "x.json.sha256", str "ab")]) ∧
    (str "x.json" ++ str ".sha256", str "ab") ∈
      (handleBackupsDelete
        [(str "x.json", str "{}"), (str "x.json.sha256", str "ab")]
        (some (str "dir/x.json"))).2 := by
  have h := handleBackupsDelete_removes_single
    [(str "x.json", str "{}"), (str "x.json.sha256", str "ab")]
    (str "dir/x.json") (by decide) (by decide) (by decide)
  refine ⟨by rw [h.1]; decide, ?_⟩
  have := h.2 (str "ab") (by decide)
  simpa using this

/-! ### Facts about filename splitting and the rotation comparator -/

lemma splitOnDot_no_dot (a : Bytes) (h : 46 ∉ a) : splitOnDot a = [a] := by
  induction a with
  | nil => rfl
  | cons c r ih =>
    simp only [List.mem_cons, not_or] at h
    have hc : ¬ c = 46 := fun hh => h.1 hh.symm
    simp [splitOnDot, hc, ih h.2]

lemma splitOnDot_append_dot (a r : Bytes) (h : 46 ∉ a) :
    splitOnDot (a ++ 46 :: r) = a :: splitOnDot r := by
  induction a with
  | nil => simp [splitOnDot]
  | cons c a ih =>
    simp only [List.mem_cons, not_or] at h
    have hc : ¬ c = 46 := fun hh => h.1 hh.symm
    simp only [List.cons_append, splitOnDot, hc, if_false, List.append_eq, ih h.2]

lemma splitOnDot_mkName (pfx t : Bytes) (hp : 46 ∉ pfx) (ht : 46 ∉ t) :
    splitOnDot (mkName pfx t) = [pfx, t, str "json"] := by
  have h1 : str "." = ([46] : Bytes) := by decide
  have h2 : str ".json" = 46 :: str "json" := by decide
  have hj : (46 : Nat) ∉ str "json" := by decide
  rw [mkName, h1, h2, List.append_assoc, List.append_assoc, List.singleton_append,
    splitOnDot_append_dot _ _ hp, splitOnDot_append_dot _ _ ht,
    splitOnDot_no_dot _ hj]

lemma bkLess_mkName (pfx t1 t2 : Bytes) (hp : 46 ∉ pfx) (h1 : 46 ∉ t1) (h2 : 46 ∉ t2) :
    bkLess (mkName pfx t1) (mkName pfx t2) = strGt t1 t2 := by
  unfold bkLess
  rw [splitOnDot_mkName _ _ hp h1, splitOnDot_mkName _ _ hp h2]

lemma strLt_asymm (a : Bytes) : ∀ b, strLt a b = true → strLt b a = false := by
  induction a with
  | nil =>
    intro b hb
    cases b with
    | nil => simp [strLt] at hb
    | cons c cs => rfl
  | cons x xs ih =>
    intro b hb
    cases b with
    | nil => simp [strLt] at hb
    | cons y ys =>
      by_cases h1 : x < y
      · have h2 : ¬ y < x := by omega
        simp [strLt, h1, h2]
      · by_cases h2 : y < x
        · simp [strLt, h1, h2] at hb
        · simp only [strLt, if_neg h1, if_neg h2] at hb
          simp only [strLt, if_neg h1, if_neg h2]
          exact ih ys hb

lemma orderedInsert_of_last (a : Bytes) (l : List Bytes)
    (h : ∀ b ∈ l, ¬ bkBefore a b) :
    List.orderedInsert bkBefore a l = l ++ [a] := by
  induction l with
  | nil => rfl
  | cons b l ih =>
    rw [List.orderedInsert, if_neg (h b (List.mem_cons_self b l))]
    rw [ih (fun x hx => h x (List.mem_cons_of_mem b hx))]
    rfl

lemma insertionSort_map_mkName (pfx : Bytes) (ts : List Bytes) (hp : 46 ∉ pfx)
    (hts : ∀ t ∈ ts, 46 ∉ t)
    (hsort : ts.Pairwise (fun a b => strLt a b = true)) :
    List.insertionSort bkBefore (ts.map (mkName pfx)) =
      (ts.map (mkName pfx)).reverse := by
  induction ts with
  | nil => rfl
  | cons t ts ih =>
    simp only [List.map_cons, List.insertionSort, List.reverse_cons]
    rw [List.pairwise_cons] at hsort
    rw [ih (fun x hx => hts x (List.mem_cons_of_mem t hx)) hsort.2]
    rw [orderedInsert_of_last]
    intro b hb
    rw [List.mem_reverse] at hb
    obtain ⟨t', ht', rfl⟩ := List.mem_map.mp hb
    unfold bkBefore
    rw [bkLess_mkName pfx t' t hp (hts t' (List.mem_cons_of_mem t ht'))
      (hts t (List.mem_cons_self t ts))]
    unfold strGt
    rw [hsort.1 t' ht']
    simp

lemma map_fst_filter_fst (p : Bytes → Bool) (d : Dir) :
    (d.filter (fun e => p e.1)).map Prod.fst = (d.map Prod.fst).filter p := by
  induction d with
  | nil => rfl
  | cons e d ih =>
    by_cases hp : p e.1
    · simp [List.filter_cons, hp, ih]
    · simp [List.filter_cons, hp, ih]

lemma filter_swap (p q : Bytes → Bool) (l : List Bytes) :
    (l.filter p).filter q = (l.filter q).filter p := by
  rw [List.filter_filter, List.filter_filter]
  apply List.filter_congr
  intro a _
  rw [Bool.and_comm]

lemma foldl_eraseName_eq_filter (ns : List Bytes) (d : Dir)
    (hn : (d.map Prod.fst).Nodup) :
    ns.foldl eraseName d = d.filter (fun e => decide (e.1 ∉ ns)) := by
  induction ns generalizing d with
  | nil => simp
  | cons n ns ih =>
    rw [List.foldl_cons, eraseName_eq_filter d n hn]
    have hn' : ((d.filter (fun e => decide (e.1 ≠ n))).map Prod.fst).Nodup := by
      rw [map_fst_filter_fst (fun x => decide (x ≠ n))]
      exact (List.filter_sublist _).nodup hn
    rw [ih _ hn', List.filter_filter]
    apply List.filter_congr
    intro e _
    simp only [List.mem_cons, not_or, ne_eq, Bool.and_comm]
    simp [and_comm]

lemma listBackups_filter (d : Dir) (pfx : Bytes) (p : Bytes → Bool) :
    listBackups (d.filter (fun e => p e.1)) pfx = (listBackups d pfx).filter p := by
  unfold listBackups
  rw [map_fst_filter_fst, filter_swap]

lemma filter_not_mem_sorted_drop_length (M : List Bytes) (k : Nat) :
    ((M.filter (fun x => decide (x ∉ (List.insertionSort bkBefore M).drop k))).length ≤ k) := by
  have hperm := List.perm_insertionSort bkBefore M
  set S := List.insertionSort bkBefore M with hS
  rw [← (hperm.filter _).length_eq]
  calc (S.filter (fun x => decide (x ∉ S.drop k))).length
      = ((S.take k ++ S.drop k).filter (fun x => decide (x ∉ S.drop k))).length := by
        rw [List.take_append_drop]
    _ ≤ k := by
        rw [List.filter_append]
        have h2 : (S.drop k).filter (fun x => decide (x ∉ S.drop k)) = [] := by
          rw [List.filter_eq_nil_iff]
          intro a ha
          simp [ha]
        rw [h2, List.append_nil]
        have h1 := List.length_filter_le (fun x => decide (x ∉ S.drop k)) (S.take k)
        have h3 := List.length_take k S
        omega

/-- C4.  Immediately after a rotation run, the number of entries matching the
document's stripped prefix in the backup directory is at most `maxBackups`;
and rotation is a no-op when the count is already at or below the limit. -/
theorem cleanup_bounds_backup_count (d : Dir) (bf : Bytes) (k : Nat)
    (hn : (d.map Prod.fst).Nodup) :
    (listBackups (cleanupOldBackups d bf k) (trimSuffix bf (str ".json"))).length ≤ k ∧
    ((listBackups d (trimSuffix bf (str ".json"))).length ≤ k →
      cleanupOldBackups d bf k = d) := by
  by_cases hle : (listBackups d (trimSuffix bf (str ".json"))).length ≤ k
  · have heq : cleanupOldBackups d bf k = d := by
      simp only [cleanupOldBackups]
      rw [if_pos hle]
    exact ⟨by rw [heq]; exact hle, fun _ => heq⟩
  · have heq : cleanupOldBackups d bf k =
        ((List.insertionSort bkBefore
          (listBackups d (trimSuffix bf (str ".json")))).drop k).foldl eraseName d := by
      simp only [cleanupOldBackups]
      rw [if_neg hle]
    refine ⟨?_, fun h => absurd h hle⟩
    rw [heq, foldl_eraseName_eq_filter _ _ hn,
      listBackups_filter d (trimSuffix bf (str ".json"))
        (fun x => decide (x ∉ (List.insertionSort bkBefore
          (listBackups d (trimSuffix bf (str ".json")))).drop k))]
    exact filter_not_mem_sorted_drop_length _ k

/-- Witness for C4: a two-backup directory rotated with limit 1 ends with at
most one matching entry, and a one-backup directory is left untouched. -/
theorem cleanup_bounds_backup_count_witness :
    (listBackups
        (cleanupOldBackups [(str "a.1.json", str "x"), (str "a.2.json", str "y")]
          (str "a.json") 1)
        (trimSuffix (str "a.json") (str ".json"))).length ≤ 1 ∧
    cleanupOldBackups [(str "a.1.json", str "x")] (str "a.json") 1 =
      [(str "a.1.json", str "x")] :=
  ⟨(cleanup_bounds_backup_count
      [(str "a.1.json", str "x"), (str "a.2.json", str "y")] (str "a.json") 1
      (by decide)).1,
   (cleanup_bounds_backup_count [(str "a.1.json", str "x")] (str "a.json") 1
      (by decide)).2 (by decide)⟩

/-- C2.  A rotation run on a directory whose entries matching the document
prefix are exactly backups `<pfx>.<t1>.json, ..., <pfx>.<tN>.json` with
strictly increasing timestamp tokens, with retention limit `k < N`, keeps
exactly the `k` backups with the largest timestamps: the comparator sorts the
matching filenames in descending order of the second dot-separated segment
(with full-string comparison as fallback for names with fewer than three
segments, encoded in `bkLess`) and every entry beyond the first `k` is
deleted. -/
theorem cleanup_keeps_newest (d : Dir) (bf pfx : Bytes) (ts : List Bytes) (k : Nat)
    (hbase : trimSuffix bf (str ".json") = pfx)
    (hp : 46 ∉ pfx) (hts : ∀ t ∈ ts, 46 ∉ t)
    (hsort : ts.Pairwise (fun a b => strLt a b = true))
    (hk : k < ts.length)
    (hn : (d.map Prod.fst).Nodup)
    (hlist : listBackups d pfx = ts.map (mkName pfx)) :
    listBackups (cleanupOldBackups d bf k) pfx =
      (ts.drop (ts.length - k)).map (mkName pfx) := by
  have hnotle : ¬ (listBackups d (trimSuffix bf (str ".json"))).length ≤ k := by
    rw [hbase, hlist, List.length_map]
    omega
  have heq : cleanupOldBackups d bf k =
      ((List.insertionSort bkBefore
        (listBackups d (trimSuffix bf (str ".json")))).drop k).foldl eraseName d := by
    simp only [cleanupOldBackups]
    rw [if_neg hnotle]
  rw [heq, hbase, hlist, insertionSort_map_mkName pfx ts hp hts hsort]
  have hsplit : ts.map (mkName pfx) =
      (ts.take (ts.length - k)).map (mkName pfx) ++
        (ts.drop (ts.length - k)).map (mkName pfx) := by
    rw [← List.map_append, List.take_append_drop]
  have hA : (ts.map (mkName pfx)).reverse.drop k =
      ((ts.take (ts.length - k)).map (mkName pfx)).reverse := by
    rw [hsplit, List.reverse_append]
    have hlenB : ((ts.drop (ts.length - k)).map (mkName pfx)).reverse.length = k := by
      simp only [List.length_reverse, List.length_map, List.length_drop]
      omega
    exact List.drop_left' hlenB
  rw [hA, foldl_eraseName_eq_filter _ _ hn,
    listBackups_filter d pfx
      (fun x => decide (x ∉ ((ts.take (ts.length - k)).map (mkName pfx)).reverse)),
    hlist]
  have hnodupM : (ts.map (mkName pfx)).Nodup := by
    have h1 : (listBackups d pfx).Nodup := (List.filter_sublist _).nodup hn
    rwa [hlist] at h1
  have hdisj : ∀ b ∈ (ts.drop (ts.length - k)).map (mkName pfx),
      b ∉ (ts.take (ts.length - k)).map (mkName pfx) := by
    intro b hb
    have h2 := hsplit ▸ hnodupM
    exact fun hbA => (List.disjoint_of_nodup_append h2) hbA hb
  rw [hsplit, List.filter_append]
  have hAnil : ((ts.take (ts.length - k)).map (mkName pfx)).filter
      (fun x => decide (x ∉ ((ts.take (ts.length - k)).map (mkName pfx)).reverse)) = [] := by
    rw [List.filter_eq_nil_iff]
    intro a ha
    simp only [decide_eq_true_eq, not_not, List.mem_reverse]
    exact ha
  have hBself : ((ts.drop (ts.length - k)).map (mkName pfx)).filter
      (fun x => decide (x ∉ ((ts.take (ts.length - k)).map (mkName pfx)).reverse)) =
      (ts.drop (ts.length - k)).map (mkName pfx) := by
    rw [List.filter_eq_self]
    intro b hb
    simp only [decide_eq_true_eq, List.mem_reverse]
    exact hdisj b hb
  rw [hAnil, hBself, List.nil_append]

/-- Witness for C2: three backups `a.1.json, a.2.json, a.3.json` rotated with
limit 1 keep exactly the newest, `a.3.json`. -/
theorem cleanup_keeps_newest_witness :
    listBackups
        (cleanupOldBackups
          [(str "a.1.json", str "x"), (str "a.2.json", str "y"),
           (str "a.3.json", str "z")]
          (str "a.json") 1)
        (str "a") =
      ([str "2", str "3"].drop 1).map (mkName (str "a")) :=
  cleanup_keeps_newest
    [(str "a.1.json", str "x"), (str "a.2.json", str "y"), (str "a.3.json", str "z")]
    (str "a.json") (str "a") [str "1", str "2", str "3"] 1
    (by decide) (by decide) (by decide) (by decide) (by decide) (by decide) (by decide)

/-! ### Facts about directory writes -/

lemma lookupD_append_self (d : Dir) (n c : Bytes) (h : n ∉ d.map Prod.fst) :
    lookupD (d ++ [(n, c)]) n = some c := by
  induction d with
  | nil => simp [lookupD]
  | cons e d ih =>
    simp only [List.map_cons, List.mem_cons, not_or] at h
    have he : ¬ e.1 = n := fun hh => h.1 hh.symm
    rw [List.cons_append, lookupD, if_neg he]
    exact ih h.2

lemma lookupD_map_replace (d : Dir) (n c : Bytes) (h : n ∈ d.map Prod.fst) :
    lookupD (d.map (fun e => if e.1 = n then (n, c) else e)) n = some c := by
  induction d with
  | nil => simp at h
  | cons e d ih =>
    by_cases he : e.1 = n
    · simp [List.map_cons, if_pos he, lookupD]
    · simp only [List.map_cons, if_neg he, lookupD, if_neg he]
      simp only [List.map_cons, List.mem_cons] at h
      exact ih (h.resolve_left (fun hh => he hh.symm))

lemma lookupD_writeFileD_self (d : Dir) (n c : Bytes) :
    lookupD (writeFileD d n c) n = some c := by
  unfold writeFileD
  by_cases h : n ∈ d.map Prod.fst
  · rw [if_pos h]
    exact lookupD_map_replace d n c h
  · rw [if_neg h]
    exact lookupD_append_self d n c h

lemma lookupD_writeFileD_other (d : Dir) (n c m : Bytes) (hmn : m ≠ n) :
    lookupD (writeFileD d n c) m = lookupD d m := by
  unfold writeFileD
  by_cases h : n ∈ d.map Prod.fst
  · rw [if_pos h]
    clear h
    induction d with
    | nil => rfl
    | cons e d ih =>
      by_cases he : e.1 = n
      · simp only [List.map_cons, if_pos he, lookupD]
        rw [if_neg (show ¬ (n = m) from fun hh => hmn hh.symm),
          if_neg (show ¬ (e.1 = m) from fun hh => hmn (hh.symm.trans he))]
        exact ih
      · simp only [List.map_cons, if_neg he, lookupD]
        by_cases hem : e.1 = m
        · rw [if_pos hem, if_pos hem]
        · rw [if_neg hem, if_neg hem]
          exact ih
  · rw [if_neg h]
    clear h
    induction d with
    | nil =>
      simp only [List.nil_append, lookupD]
      rw [if_neg (fun hh : n = m => hmn hh.symm)]
    | cons e d ih =>
      rw [List.cons_append, lookupD, lookupD]
      by_cases hem : e.1 = m
      · rw [if_pos hem, if_pos hem]
      · rw [if_neg hem, if_neg hem]
        exact ih

/-- C3.  When the target file exists and the write passes the precondition
check, the backup directory the update returns is exactly the rotation of the
directory obtained by writing the snapshot `<baseNameWithoutExtension>.<now>.json`
holding the pre-write bytes verbatim and its sidecar `<same>.sha256` holding
the hex-encoded full (non-truncated) digest plus a newline; and when the
target file does not exist, the backup directory is returned unchanged. -/
theorem update_snapshot_and_sidecar (parse : Bytes → Option Json)
    (render : Json → Bytes) (path : Bytes) (maxB : Nat) (ifMatch now body : Bytes)
    (st : St) (j : Json) (cur : Bytes)
    (hp : parse body = some j) (hv : validateByPath path j = true) :
    (st.file = some cur →
      ¬(ifMatch ≠ [] ∧ computeETag (some cur) ≠ ifMatch) →
      (updateJSONFileWithBackup parse render path maxB ifMatch now body st).2.backups =
        cleanupOldBackups
          (writeFileD (writeFileD st.backups (backupNameOf path now) cur)
            (backupNameOf path now ++ str ".sha256") (writeChecksumBytes cur))
          (baseName path) maxB ∧
      lookupD
          (writeFileD (writeFileD st.backups (backupNameOf path now) cur)
            (backupNameOf path now ++ str ".sha256") (writeChecksumBytes cur))
          (backupNameOf path now) = some cur ∧
      lookupD
          (writeFileD (writeFileD st.backups (backupNameOf path now) cur)
            (backupNameOf path now ++ str ".sha256") (writeChecksumBytes cur))
          (backupNameOf path now ++ str ".sha256") =
        some (hexBytes (sha256 cur) ++ [10])) ∧
    (st.file = none →
      (updateJSONFileWithBackup parse render path maxB ifMatch now body st).2.backups =
        st.backups) := by
  constructor
  · intro hf hpre
    refine ⟨?_, ?_, ?_⟩
    · simp [updateJSONFileWithBackup, hp, hv, hf, hpre]
    · rw [lookupD_writeFileD_other _ _ _ _
        (Ne.symm (append_right_ne (backupNameOf path now) (str ".sha256") (by decide)))]
      exact lookupD_writeFileD_self _ _ _
    · exact lookupD_writeFileD_self _ _ _
  · intro hf
    simp [updateJSONFileWithBackup, hp, hv, hf]

/-- Witness for C3: a concrete write over an existing file `"[]"`, and a
concrete write with no pre-existing file leaving the backup directory alone. -/
theorem update_snapshot_and_sidecar_witness :
    ((updateJSONFileWithBackup (fun _ => some (Json.obj [])) (fun _ => str "{}")
        (str "x.json") 10 [] (str "20250101-000000") (str "{}")
        ⟨some (str "[]"), []⟩).2.backups =
      cleanupOldBackups
        (writeFileD
          (writeFileD [] (backupNameOf (str "x.json") (str "20250101-000000"))
            (str "[]"))
          (backupNameOf (str "x.json") (str "20250101-000000") ++ str ".sha256")
          (writeChecksumBytes (str "[]")))
        (baseName (str "x.json")) 10 ∧
      lookupD
          (writeFileD
            (writeFileD [] (backupNameOf (str "x.json") (str "20250101-000000"))
              (str "[]"))
            (backupNameOf (str "x.json") (str "20250101-000000") ++ str ".sha256")
            (writeChecksumBytes (str "[]")))
          (backupNameOf (str "x.json") (str "20250101-000000")) = some (str "[]") ∧
      lookupD
          (writeFileD
            (writeFileD [] (backupNameOf (str "x.json") (str "20250101-000000"))
              (str "[]"))
            (backupNameOf (str "x.json") (str "20250101-000000") ++ str ".sha256")
            (writeChecksumBytes (str "[]")))
          (backupNameOf (str "x.json") (str "20250101-000000") ++ str ".sha256") =
        some (hexBytes (sha256 (str "[]")) ++ [10])) ∧
    (updateJSONFileWithBackup (fun _ => some (Json.obj [])) (fun _ => str "{}")
        (str "x.json") 10 [] (str "20250101-000000") (str "{}")
        ⟨none, [(str "a", str "b")]⟩).2.backups = [(str "a", str "b")] :=
  ⟨(update_snapshot_and_sidecar (fun _ => some (Json.obj [])) (fun _ => str "{}")
      (str "x.json") 10 [] (str "20250101-000000") (str "{}")
      ⟨some (str "[]"), []⟩ (Json.obj []) (str "[]") rfl (by decide)).1 rfl
      (fun h => h.1 rfl),
   (update_snapshot_and_sidecar (fun _ => some (Json.obj [])) (fun _ => str "{}")
      (str "x.json") 10 [] (str "20250101-000000") (str "{}")
      ⟨none, [(str "a", str "b")]⟩ (Json.obj []) (str "[]") rfl (by decide)).2 rfl⟩
